import Mathlib

/-!
Verification of the `sdb` key-value store (go-shelve repository).

This file gives a shallow embedding of the parts of `sdb` that the claims
C1..C10 are about, and settles each claim against it.

Modelling conventions:
* Go byte strings (`[]byte`, and Go `string`s compared byte-wise) are
  `List Nat`, each element a byte value; the Mathlib lexicographic order on
  `List Nat` coincides with Go's byte-wise string comparison for these.
* Go `uint64` arithmetic is `Nat` with an explicit `% 2^64` at each point
  where the source increments or decrements a counter.
* Go functions that can panic or return an error are embedded with `Option`
  (`none` = panic / error); where a claim needs to distinguish the two, the
  doc comments say which case `none` stands for.
* A filesystem directory is modelled by the ascending listing of its file
  names: the source always consumes directories through
  `readdirnames` + `sort.Slice`, so the sorted listing is exactly the view
  the code computes.
-/

namespace SDB

/-- Byte strings: Go `[]byte` values and byte-compared Go strings. -/
abbrev Bytes := List Nat

/-- The sentinel shard directory name `"_"` (`sentinelDir` in the source);
`'_'` is byte 95. -/
def sentinelDir : Bytes := [95]

/-- `MaxKeyLength` from the source: keys are limited to 128 bytes. -/
def MaxKeyLength : Nat := 128

/-- One base32hex digit, upper case (`encoding/base32` extended-hex
alphabet `0-9A-V`): digit `d < 10` maps to `'0'+d`, otherwise to
`'A'+(d-10)`. -/
def b32digit (d : Nat) : Nat :=
  if d < 10 then 48 + d else 55 + d

/-- The padding character `'='` used by Go's `base32.HexEncoding`. -/
def padChar : Nat := 61

/-- Encode one source chunk of 1..5 bytes into 8 output characters exactly as
`base32.HexEncoding.EncodeToString` does: the chunk's bits, left-padded with
zero bits to a multiple of 5, become base32hex digits, and the 8-character
block is completed with `'='` padding. -/
def encChunk (c : Bytes) : Bytes :=
  let r := c.length
  let m := (8 * r + 4) / 5
  let v := c.foldl (fun a b => a * 256 + b) 0
  let w := v * 2 ^ (5 * m - 8 * r)
  (List.range m).map (fun j => b32digit (w / 2 ^ (5 * (m - 1 - j)) % 32)) ++
    List.replicate (8 - m) padChar

/-- `encodeKey` from `sdb/db.go`: `base32.HexEncoding.EncodeToString(key)`,
which consumes the input in 5-byte groups, the final group possibly
short.  Note that Go's `base32.HexEncoding` is the *padded* encoding. -/
def encodeKey : Bytes → Bytes
  | [] => []
  | b1 :: b2 :: b3 :: b4 :: b5 :: rest =>
      encChunk [b1, b2, b3, b4, b5] ++ encodeKey rest
  | l => encChunk l

/-- Value of one base32hex character (`'0'-'9'`, `'A'-'V'`); `none` for any
other character, which `base32.HexEncoding.DecodeString` reports as a
`CorruptInputError`. -/
def b32val (c : Nat) : Option Nat :=
  if 48 ≤ c ∧ c ≤ 57 then some (c - 48)
  else if 65 ≤ c ∧ c ≤ 86 then some (c - 55)
  else none

/-- Number of decoded bytes for a block with `m` data characters; the
remaining counts are rejected by Go's decoder as incorrect padding. -/
def decBlockBytes : Nat → Option Nat
  | 2 => some 1
  | 4 => some 2
  | 5 => some 3
  | 7 => some 4
  | 8 => some 5
  | _ => none

/-- Decode one 8-character base32hex block (with `'='` padding) into its
bytes, as Go's decoder does; `none` models a `CorruptInputError`. -/
def decChunk (c : Bytes) : Option Bytes :=
  let data := c.takeWhile (fun x => x ≠ padChar)
  let m := data.length
  if (c.drop m).any (fun x => x ≠ padChar) then none
  else
    match decBlockBytes m with
    | none => none
    | some r => do
      let vals ← data.mapM b32val
      let v := vals.foldl (fun a d => a * 32 + d) 0
      let w := v / 2 ^ (5 * m - 8 * r)
      some ((List.range r).map (fun j => w / 2 ^ (8 * (r - 1 - j)) % 256))

/-- `decodeKey` from `sdb/db.go`: `base32.HexEncoding.DecodeString(key)`.
Padded decoding: the input length must be a multiple of 8, a padded block
must be the final block, and `none` models the decode error (surfaced as
`BadRecordName` by `Items`). -/
def decodeKey : Bytes → Option Bytes
  | [] => some []
  | c1 :: c2 :: c3 :: c4 :: c5 :: c6 :: c7 :: c8 :: rest => do
      let c := [c1, c2, c3, c4, c5, c6, c7, c8]
      let b ← decChunk c
      if (c.takeWhile (fun x => x ≠ padChar)).length < 8 ∧ rest ≠ [] then none
      else do
        let bs ← decodeKey rest
        some (b ++ bs)
  | _ => none

/-! ## Go map operations

Go maps are embedded as association lists; `goMapInsert` overwrites in
place, `goMapDelete` removes the key's entry, `goMapLookup` is map
indexing with the `ok` flag. -/

def goMapLookup {κ α : Type} [DecidableEq κ] (k : κ) : List (κ × α) → Option α
  | [] => none
  | (k', v) :: rest => if k' = k then some v else goMapLookup k rest

def goMapInsert {κ α : Type} [DecidableEq κ] (k : κ) (v : α) : List (κ × α) → List (κ × α)
  | [] => [(k, v)]
  | (k', v') :: rest => if k' = k then (k, v) :: rest else (k', v') :: goMapInsert k v rest

def goMapDelete {κ α : Type} [DecidableEq κ] (k : κ) : List (κ × α) → List (κ × α)
  | [] => []
  | (k', v') :: rest => if k' = k then rest else (k', v') :: goMapDelete k rest

/-! ## Cache (`sdb/internal/cache.go`) -/

/-- `randomCache` from `sdb/internal/cache.go`: a bounded cache with
random eviction.  `cache` is the Go map, `maxSize` the capacity. -/
structure RandomCache where
  cache : List (String × Bytes)
  maxSize : Int
deriving DecidableEq, Repr

/-- `randomCache.Get`. -/
def randomCacheGet (c : RandomCache) (key : String) : Option Bytes :=
  goMapLookup key c.cache

/-- `randomCache.Put`.  When the cache is at capacity the source ranges
over the map and deletes the first key produced by the (randomized) map
iteration; `pick` stands for that arbitrary key, so every possible
execution corresponds to some choice of `pick` among the present keys. -/
def randomCachePut (c : RandomCache) (pick : String) (key : String) (value : Bytes) :
    RandomCache :=
  if c.maxSize ≤ 0 ∨ (c.cache.length : Int) < c.maxSize then
    { c with cache := goMapInsert key value c.cache }
  else
    { c with cache := goMapInsert key value (goMapDelete pick c.cache) }

/-- `randomCache.Delete`. -/
def randomCacheDelete (c : RandomCache) (key : String) : RandomCache :=
  { c with cache := goMapDelete key c.cache }

/-! ## Atomic writer (`sdb/fs.go`) -/

/-- The filesystem as seen by the atomic writer: a map from paths to file
contents. -/
abbrev FileMap := List (String × Bytes)

/-- `defaultDiskSectorSize` from `sdb/fs.go`. -/
def defaultDiskSectorSize : Nat := 4096

/-- `atomicWriter._writeFile`: open with `O_WRONLY|O_CREATE|O_TRUNC`
(plus `O_EXCL` when `excl`), then write.  With `O_EXCL` the open fails
(`none`) when the file exists; otherwise the file is created or
truncated and rewritten. -/
def atomicWriterWriteFileRaw (m : FileMap) (name : String) (data : Bytes) (excl : Bool) :
    Option FileMap :=
  if excl ∧ (goMapLookup name m).isSome then none
  else some (goMapInsert name data m)

/-- `renameFile` (`os.Rename`): atomically moves `old` over `new`,
replacing any existing file at `new`; fails if `old` does not exist. -/
def renameFile (m : FileMap) (old new : String) : Option FileMap :=
  match goMapLookup old m with
  | none => none
  | some data => some (goMapInsert new data (goMapDelete old m))

/-- `atomicWriter.WriteFile` from `sdb/fs.go`.  On linux, data of at most
one disk sector is written directly via `_writeFile`; otherwise the data
is written to a fresh temporary path `tmpPath` (`makeTempPath` produces a
name in the system temp directory, randomized so it is not an existing
target) and renamed over `path`.  `syncWrites` only adds fsync calls,
which do not change the file map, so it is omitted.  `none` is an I/O
error (the map is left unchanged by a failed call). -/
def atomicWriterWriteFile (goosLinux : Bool) (m : FileMap) (path tmpPath : String)
    (data : Bytes) (excl : Bool) : Option FileMap :=
  if goosLinux ∧ data.length ≤ defaultDiskSectorSize then
    atomicWriterWriteFileRaw m path data excl
  else
    match atomicWriterWriteFileRaw m tmpPath data excl with
    | none => none
    | some m1 => renameFile m1 tmpPath path

/-! ## Shards (`sdb/shard.go`)

A shard is a subdirectory of `data/` whose name (`maxKey`) is the
inclusive upper bound of the record tokens stored inside it.  The
directory's contents are modelled by `files`, the ascending listing of
its file names — exactly the view the source computes with
`readdirnames` + `sort.Slice` wherever it reads a directory. -/

structure Shard where
  maxKey : Bytes
  files : List Bytes
deriving DecidableEq, Repr

/-- `DB.shardForKey`: `sort.Search` returns the smallest index whose
upper bound is `≥ enc` (the predicate `enc ≤ maxKey` is monotone along
the strictly increasing bounds, so the binary search computes exactly
the least satisfying index, i.e. `findIdx`); it returns the length when
no shard satisfies it. -/
def shardForKey (shards : List Shard) (enc : Bytes) : Nat :=
  shards.findIdx (fun sh => decide (enc ≤ sh.maxKey))

/-- Go slice indexing with an `int` index: out-of-range (including
negative) indices panic, which is modelled by `none`. -/
def goIndex {α : Type} (l : List α) (i : Int) : Option α :=
  if i < 0 then none else l.get? i.toNat

/-- `DB.splitShard` together with `updateSplitShards` (`sdb/shard.go`):
enumerate and sort the shard's files, move the lower half
`files[0:mid]` into a new directory named `files[mid-1]`, and insert the
new shard record at `idx` while the original shard keeps the upper half.
`none` models a panic: `files[mid-1]` is indexed with the Go `int`
`mid - 1`, and `db.shards[idx]` must be in range. -/
def splitShard (shards : List Shard) (idx : Nat) : Option (List Shard) := do
  let sh ← shards.get? idx
  let files := sh.files
  let mid := files.length / 2
  let newLowMax ← goIndex files ((files.length : Int) / 2 - 1)
  some (shards.take idx ++
    ⟨newLowMax, files.take mid⟩ :: ⟨sh.maxKey, files.drop mid⟩ :: shards.drop (idx + 1))

/-- Effect on a directory listing of creating the file named `t`
(`atomicWriter.WriteFile` on a fresh name adds it; rewriting an existing
record leaves the listing unchanged). -/
def dirInsert (t : Bytes) : List Bytes → List Bytes
  | [] => [t]
  | x :: xs => if t < x then t :: x :: xs else if t = x then x :: xs else x :: dirInsert t xs

/-- Effect on a directory listing of `os.Remove` of the file named `t`. -/
def dirRemove (t : Bytes) : List Bytes → List Bytes
  | [] => []
  | x :: xs => if t = x then xs else x :: dirRemove t xs

/-- `defaultMaxFilesPerShard` from `sdb/shard.go`. -/
def defaultMaxFilesPerShard : Nat := 30000

/-- `DB.Put` (`sdb/db.go`), restricted to its effect on the shard layout
and record placement: locate the shard with `shardForKey`, write the
record file, bump the shard's count when the key is new, and split the
shard when its count exceeds `maxFilesPerShard`.  `none` models an error
or panic before any change to the layout: keys longer than
`MaxKeyLength` are rejected with `ErrKeyTooLarge`; the empty key encodes
to the empty token, so its target path is the shard directory itself and
the write fails with `EISDIR`; and `db.shards[shardID]` panics when
`shardForKey` is out of range (impossible while the sentinel shard is
present). -/
def dbPut (maxFilesPerShard : Nat) (shards : List Shard) (key : Bytes) :
    Option (List Shard) :=
  if key = [] ∨ MaxKeyLength < key.length then none
  else
    let enc := encodeKey key
    let i := shardForKey shards enc
    match shards.get? i with
    | none => none
    | some sh =>
      let files := dirInsert enc sh.files
      let shards1 := shards.set i ⟨sh.maxKey, files⟩
      if maxFilesPerShard < files.length then splitShard shards1 i else some shards1

/-- `DB.Delete` restricted to its effect on the shard layout: remove the
record file (removing a missing file is not an error and changes
nothing).  For the empty key the target path is the shard directory
itself and `os.Remove` either fails or removes an empty directory — in
both cases no record file changes, so the layout of record files is
unchanged. -/
def dbDelete (shards : List Shard) (key : Bytes) : List Shard :=
  if key = [] then shards
  else
    let enc := encodeKey key
    let i := shardForKey shards enc
    match shards.get? i with
    | none => shards
    | some sh => shards.set i ⟨sh.maxKey, dirRemove enc sh.files⟩

/-- A mutation issued against the open database. -/
inductive DBOp
  | put (key : Bytes)
  | del (key : Bytes)
deriving DecidableEq, Repr

/-- Run one mutation.  A `Put` that returns an error leaves the layout
unchanged (its error paths fire before any file is written). -/
def runOp (maxFilesPerShard : Nat) (shards : List Shard) : DBOp → List Shard
  | .put k => (dbPut maxFilesPerShard shards k).getD shards
  | .del k => dbDelete shards k

/-- Run a sequence of mutations. -/
def runOps (maxFilesPerShard : Nat) (shards : List Shard) : List DBOp → List Shard
  | [] => shards
  | op :: rest => runOps maxFilesPerShard (runOp maxFilesPerShard shards op) rest

/-- The shard layout created by the first `Open`: a single sentinel
shard with an empty directory (`createDatabaseStorage` in
`sdb/init.go`). -/
def initialShards : List Shard := [⟨sentinelDir, []⟩]

/-! ## Layout invariant -/

/-- A legal record token: tokens are produced by `encodeKey` on a
non-empty key, so they are non-empty and use only the characters
`0-9A-V=`, all of which are bytes below `'_' = 95`. -/
def validTok (t : Bytes) : Prop := t ≠ [] ∧ ∀ c ∈ t, c < 95

/-- Optional strict lower bound on a token. -/
def optLt : Option Bytes → Bytes → Prop
  | none, _ => True
  | some l, t => l < t

/-- Well-formedness of one shard relative to the exclusive lower bound
`lo` (the upper bound of the preceding shard, if any): the directory
listing is strictly ascending and every token in it lies in
`(lo, maxKey]` and is legal. -/
def filesOK (lo : Option Bytes) (sh : Shard) : Prop :=
  List.Sorted (· < ·) sh.files ∧
    ∀ t ∈ sh.files, optLt lo t ∧ t ≤ sh.maxKey ∧ validTok t

/-- Invariant of the shard list beyond the exclusive lower bound `lo`:
upper bounds strictly increase, the final shard is the sentinel, and
every shard is well formed relative to its predecessor's bound. -/
def shardsInv : Option Bytes → List Shard → Prop
  | _, [] => False
  | lo, [sh] => optLt lo sh.maxKey ∧ sh.maxKey = sentinelDir ∧ filesOK lo sh
  | lo, sh :: sh2 :: rest =>
      optLt lo sh.maxKey ∧ filesOK lo sh ∧ shardsInv (some sh.maxKey) (sh2 :: rest)

/-- The sequence of shard upper-bound names (the `data/` subdirectory
names, in shard-index order). -/
def upperBounds (shards : List Shard) : List Bytes := shards.map Shard.maxKey

/-! ## Iteration (`DB.Items`, `streamDir`, `handleFileWithLock`) -/

/-- The filename filter inside `streamDir`: while `needFilter` is set,
skip names that are still before `start` in the chosen direction; once a
name crosses the boundary, filtering ceases for the remainder.  On the
(direction-)sorted listing this keeps exactly the suffix from the first
name at or past `start`. -/
def streamDirFilter (asc : Bool) (start : Bytes) (names : List Bytes) : List Bytes :=
  names.dropWhile (fun nm => if asc then nm < start else start < nm)

/-- `streamDir` specialised to the collecting callback used by the
ordering claim: list the directory in the direction of `order`
(ascending for `order > Desc`, else descending), apply the `start`
filter, and decode every visited filename (`handleFileWithLock` calls
`decodeKey` and surfaces failures as errors, modelled by `none`).  The
returned list holds the decoded keys in callback-invocation order. -/
def streamDirKeys (files : List Bytes) (start : Bytes) (order : Int) : Option (List Bytes) :=
  let asc := order > -1
  let names := if asc then files else files.reverse
  let kept := if start = [] then names else streamDirFilter asc start names
  kept.mapM decodeKey

/-- `DB.Items` specialised to a callback that records every key and
always continues: choose the first shard (from `shardForKey` when
`start` is non-empty, else an extremity), then walk the shards in the
direction of `order`, streaming each shard's directory.  `none` models a
panic (shard index out of range) or a `BadRecordName` error. -/
def itemsKeys (shards : List Shard) (start : Bytes) (order : Int) : Option (List Bytes) := do
  let n := shards.length
  let asc := order = 1
  let encStart := encodeKey start
  let idx := if start ≠ [] then shardForKey shards encStart
             else if asc then 0 else n - 1
  let idxs := if asc then List.range' idx (n - idx) else (List.range (idx + 1)).reverse
  let chunks ← idxs.mapM (fun k => do
    let sh ← shards.get? k
    streamDirKeys sh.files encStart order)
  some chunks.flatten

/-! ## Metadata (`sdb/metadata.go`, `sdb/db.go`, `sdb/recover.go`) -/

/-- `2^64`: the modulus of Go's `uint64`, the type of the metadata
counters. -/
def U64 : Nat := 2 ^ 64

/-- The `metadata` struct.  All three counters are `uint64` in the
source; they are embedded as `Nat` with an explicit `% U64` at every
increment or decrement. -/
structure Metadata where
  Version : Nat
  TotalEntries : Nat
  Generation : Nat
  Checkpoint : Nat
deriving DecidableEq, Repr

/-- The engine format `version` constant. -/
def version : Nat := 1

/-- `makeMetadata`. -/
def makeMetadata : Metadata :=
  { Version := version, TotalEntries := 0, Generation := 0, Checkpoint := 0 }

/-- `metadata.Validate`: any version mismatch is fatal. -/
def metadataValidate (m : Metadata) : Bool := m.Version == version

/-- A mutation of the metadata counters performed by the public
operations (`sdb/db.go`, `sdb/recover.go`). -/
inductive MetaOp
  /-- `prepareForMutation` with the try-lock acquired. -/
  | prepare
  /-- `DB.Put` of a key that was absent (`!updated`). -/
  | putNew
  /-- `DB.Put` of a key that was present. -/
  | putExisting
  /-- `DB.Delete` of a present key. -/
  | delFound
  /-- `DB.Delete` of an absent key. -/
  | delMissing
  /-- `syncInternal`, reached from `DB.Sync` and `DB.Close`. -/
  | sync
  /-- `recoverDatabase` with `n` regular files counted under `data/`. -/
  | recover (n : Nat)
deriving DecidableEq, Repr

/-- The effect of each operation on the metadata counters, with `uint64`
wrap-around made explicit. -/
def metaStep : MetaOp → Metadata → Metadata
  | .prepare, m =>
      if m.Generation ≠ m.Checkpoint then m
      else { m with Generation := (m.Checkpoint + 1) % U64 }
  | .putNew, m =>
      { m with TotalEntries := (m.TotalEntries + 1) % U64,
               Generation := (m.Generation + 1) % U64 }
  | .putExisting, m => { m with Generation := (m.Generation + 1) % U64 }
  | .delFound, m =>
      { m with TotalEntries := (m.TotalEntries + (U64 - 1)) % U64,
               Generation := (m.Generation + 1) % U64 }
  | .delMissing, m => { m with Generation := (m.Generation + 1) % U64 }
  | .sync, m => { m with Checkpoint := m.Generation }
  | .recover n, m => { m with TotalEntries := n % U64, Checkpoint := m.Generation }

/-! ## Initialization and recovery (`sdb/init.go`, `sdb/recover.go`) -/

/-- A directory tree as walked by `countRegularFiles` (`fs.WalkDir`). -/
inductive FTree
  | file
  | dir (children : List FTree)
deriving Repr

/-- `countRegularFiles` (`sdb/fs.go`): walk the tree and count the
regular (non-directory) files. -/
def countRegularFiles : FTree → Nat
  | .file => 1
  | .dir cs => (cs.attach.map fun c => countRegularFiles c.1).sum
decreasing_by
  have := List.sizeOf_lt_of_mem c.2
  simp only [FTree.dir.sizeOf_spec]
  omega

/-- The state `Open` manipulates while initializing: the in-memory
metadata, the metadata blob persisted in `meta/meta.gob`, and the tree
rooted at the `data/` directory. -/
structure InitState where
  metadata : Metadata
  persisted : Metadata
  dataDir : FTree

/-- `metadataStore.Save`: marshal the metadata and write it atomically
over the metadata file. -/
def metadataSave (st : InitState) : InitState := { st with persisted := st.metadata }

/-- `recoverDatabase` (`sdb/recover.go`): count the regular files under
`data/` (a `uint64` count), set `TotalEntries` to it, mark the
checkpoint consistent, and persist the metadata. -/
def recoverDatabase (st : InitState) : InitState :=
  let totalItems := countRegularFiles st.dataDir % U64
  metadataSave
    { st with metadata :=
        { st.metadata with TotalEntries := totalItems,
                           Checkpoint := st.metadata.Generation } }

/-- `sanityCheck` (`sdb/init.go`): validate the version (mismatch is
fatal, `none`), then run recovery exactly when the generation differs
from the checkpoint. -/
def sanityCheck (st : InitState) : Option InitState :=
  if ¬ metadataValidate st.metadata then none
  else if st.metadata.Generation ≠ st.metadata.Checkpoint then some (recoverDatabase st)
  else some st

/-- Go's conversion `int64(n)` of a `uint64` value: values below `2^63`
are unchanged, larger ones wrap to negative. -/
def int64OfUInt64 (n : Nat) : Int :=
  if n % U64 < 2 ^ 63 then ((n % U64 : Nat) : Int)
  else ((n % U64 : Nat) : Int) - (U64 : Int)

/-- `DB.Len`: `-1` when closed, else `int64(db.metadata.TotalEntries)`. -/
def dbLen (closed : Bool) (m : Metadata) : Int :=
  if closed then -1 else int64OfUInt64 m.TotalEntries

/-! ## Read path (`DB.Get`, `DB.Has`, `cacheGet`) -/

/-- The record state a read observes: the decoded-key view of the record
files on disk, and the in-memory cache. -/
structure KVView where
  disk : List (Bytes × Bytes)
  cache : List (Bytes × Bytes)

/-- `cacheGet` (`sdb/db.go`): builds the cache key with
`unsafe.String(&key[0], len(key))`.  Indexing `key[0]` panics for a
zero-length key (`none`); otherwise look the key up in the cache. -/
def cacheGet (cache : List (Bytes × Bytes)) (key : Bytes) : Option (Option Bytes) :=
  match key with
  | [] => none
  | _ :: _ => some (goMapLookup key cache)

/-- `DB.Get` on an open database: a cache hit returns the cached value;
on a miss, `fs.ReadFile` of the record path returns the file contents,
and a `NotFound` yields `nil` (the empty byte string) with no error.
The outer `none` is the `cacheGet` panic. -/
def dbGet (st : KVView) (key : Bytes) : Option Bytes :=
  match cacheGet st.cache key with
  | none => none
  | some (some v) => some v
  | some none =>
      match goMapLookup key st.disk with
      | some v => some v
      | none => some []

/-- `DB.Has` on an open database: a cache hit returns `true`; on a miss,
`Stat` of the record path decides.  The outer `none` is the `cacheGet`
panic. -/
def dbHas (st : KVView) (key : Bytes) : Option Bool :=
  match cacheGet st.cache key with
  | none => none
  | some (some _) => some true
  | some none => some (goMapLookup key st.disk).isSome

/-! # Theorems -/

/-! ## Association-list (Go map) lemmas -/

variable {κ α : Type} [DecidableEq κ]

theorem goMapLookup_insert_self (k : κ) (v : α) (m : List (κ × α)) :
    goMapLookup k (goMapInsert k v m) = some v := by
  induction m with
  | nil => simp [goMapInsert, goMapLookup]
  | cons hd tl ih =>
    obtain ⟨k0, v0⟩ := hd
    by_cases h : k0 = k
    · subst h; simp [goMapInsert, goMapLookup]
    · simp [goMapInsert, goMapLookup, h, ih]

theorem goMapLookup_insert_ne {k' k : κ} (v : α) (m : List (κ × α)) (h : k' ≠ k) :
    goMapLookup k' (goMapInsert k v m) = goMapLookup k' m := by
  induction m with
  | nil => simp [goMapInsert, goMapLookup, Ne.symm h]
  | cons hd tl ih =>
    obtain ⟨k0, v0⟩ := hd
    by_cases h0 : k0 = k
    · subst h0; simp [goMapInsert, goMapLookup, Ne.symm h]
    · simp [goMapInsert, goMapLookup, h0, ih]

theorem goMapLookup_delete_ne {k' k : κ} (m : List (κ × α)) (h : k' ≠ k) :
    goMapLookup k' (goMapDelete k m) = goMapLookup k' m := by
  induction m with
  | nil => simp [goMapDelete, goMapLookup]
  | cons hd tl ih =>
    obtain ⟨k0, v0⟩ := hd
    by_cases h0 : k0 = k
    · subst h0
      simp [goMapDelete, goMapLookup, Ne.symm h]
    · simp [goMapDelete, goMapLookup, h0, ih]

theorem goMapLookup_eq_none_of_not_mem {k : κ} {m : List (κ × α)}
    (h : k ∉ m.map Prod.fst) : goMapLookup k m = none := by
  induction m with
  | nil => simp [goMapLookup]
  | cons hd tl ih =>
    obtain ⟨k0, v0⟩ := hd
    simp only [List.map_cons, List.mem_cons] at h
    push_neg at h
    simp [goMapLookup, Ne.symm h.1, ih h.2]

theorem goMapLookup_delete_self {k : κ} {m : List (κ × α)}
    (hnd : (m.map Prod.fst).Nodup) : goMapLookup k (goMapDelete k m) = none := by
  induction m with
  | nil => simp [goMapDelete, goMapLookup]
  | cons hd tl ih =>
    obtain ⟨k0, v0⟩ := hd
    simp only [List.map_cons, List.nodup_cons] at hnd
    by_cases h0 : k0 = k
    · subst h0
      simpa [goMapDelete] using goMapLookup_eq_none_of_not_mem hnd.1
    · simp [goMapDelete, goMapLookup, h0, ih hnd.2]

theorem goMapLookup_isSome_of_mem {k : κ} {m : List (κ × α)}
    (h : k ∈ m.map Prod.fst) : (goMapLookup k m).isSome := by
  induction m with
  | nil => simp at h
  | cons hd tl ih =>
    obtain ⟨k0, v0⟩ := hd
    by_cases h0 : k0 = k
    · simp [goMapLookup, h0]
    · simp only [List.map_cons, List.mem_cons] at h
      rcases h with h | h
      · exact absurd h.symm h0
      · simpa [goMapLookup, h0] using ih h

theorem length_goMapInsert_absent {k : κ} {m : List (κ × α)} (v : α)
    (h : goMapLookup k m = none) : (goMapInsert k v m).length = m.length + 1 := by
  induction m with
  | nil => simp [goMapInsert]
  | cons hd tl ih =>
    obtain ⟨k0, v0⟩ := hd
    by_cases h0 : k0 = k
    · simp [goMapLookup, h0] at h
    · simp only [goMapLookup, h0, if_false] at h
      simp [goMapInsert, h0, ih h]

theorem length_goMapInsert_present {k : κ} {m : List (κ × α)} (v : α)
    (h : (goMapLookup k m).isSome) : (goMapInsert k v m).length = m.length := by
  induction m with
  | nil => simp [goMapLookup] at h
  | cons hd tl ih =>
    obtain ⟨k0, v0⟩ := hd
    by_cases h0 : k0 = k
    · simp [goMapInsert, h0]
    · simp only [goMapLookup, h0, if_false] at h
      simp [goMapInsert, h0, ih h]

theorem length_goMapDelete_mem {k : κ} {m : List (κ × α)}
    (h : k ∈ m.map Prod.fst) : (goMapDelete k m).length + 1 = m.length := by
  induction m with
  | nil => simp at h
  | cons hd tl ih =>
    obtain ⟨k0, v0⟩ := hd
    by_cases h0 : k0 = k
    · simp [goMapDelete, h0]
    · simp only [List.map_cons, List.mem_cons] at h
      rcases h with h | h
      · exact absurd h.symm h0
      · simp [goMapDelete, h0, ih h]

/-! ## C7 lemmas: tokens -/

theorem validTok_lt_sentinel {t : Bytes} (h : validTok t) : t < sentinelDir := by
  obtain ⟨hne, hlt⟩ := h
  cases t with
  | nil => exact absurd rfl hne
  | cons c cs => exact List.Lex.rel (hlt c (by simp))

theorem b32digit_lt (d : Nat) (h : d < 32) : b32digit d < 95 := by
  unfold b32digit
  split <;> omega

theorem encChunk_mem_lt {c : Bytes} : ∀ x ∈ encChunk c, x < 95 := by
  intro x hx
  unfold encChunk at hx
  rcases List.mem_append.mp hx with hx | hx
  · obtain ⟨j, _, rfl⟩ := List.mem_map.mp hx
    exact b32digit_lt _ (Nat.mod_lt _ (by omega))
  · rw [List.eq_of_mem_replicate hx]
    unfold padChar
    omega

theorem encChunk_ne_nil {c : Bytes} (h : c ≠ []) : encChunk c ≠ [] := by
  have hlen : 0 < c.length := List.length_pos.mpr h
  have : 0 < (encChunk c).length := by
    unfold encChunk
    simp only [List.length_append, List.length_map, List.length_range,
      List.length_replicate]
    omega
  exact List.length_pos.mp this

theorem encodeKey_mem_lt : ∀ (l : Bytes), ∀ x ∈ encodeKey l, x < 95 := by
  intro l
  induction l using encodeKey.induct with
  | case1 => simp [encodeKey]
  | case2 b1 b2 b3 b4 b5 rest ih =>
    intro x hx
    rw [encodeKey] at hx
    rcases List.mem_append.mp hx with hx | hx
    · exact encChunk_mem_lt x hx
    · exact ih x hx
  | case3 l h1 h2 =>
    intro x hx
    rw [encodeKey.eq_3 l h1 h2] at hx
    exact encChunk_mem_lt x hx

theorem validTok_encodeKey {k : Bytes} (h : k ≠ []) : validTok (encodeKey k) := by
  refine ⟨?_, fun c hc => encodeKey_mem_lt k c hc⟩
  match k with
  | b1 :: b2 :: b3 :: b4 :: b5 :: rest =>
    rw [encodeKey]
    simp only [ne_eq, List.append_eq_nil]
    intro ⟨hc, _⟩
    exact encChunk_ne_nil (by simp) hc
  | [b1] => exact encChunk_ne_nil (by simp)
  | [b1, b2] => exact encChunk_ne_nil (by simp)
  | [b1, b2, b3] => exact encChunk_ne_nil (by simp)
  | [b1, b2, b3, b4] => exact encChunk_ne_nil (by simp)

/-! ## C7 lemmas: directory listings -/

theorem mem_dirInsert (t x : Bytes) : ∀ (l : List Bytes),
    x ∈ dirInsert t l ↔ x = t ∨ x ∈ l := by
  intro l
  induction l with
  | nil => simp [dirInsert]
  | cons y ys ih =>
    by_cases h1 : t < y
    · simp [dirInsert, h1]
    · by_cases h2 : t = y
      · subst h2
        simp [dirInsert, h1]
      · simp [dirInsert, h1, h2, ih]
        tauto

theorem sorted_dirInsert (t : Bytes) : ∀ (l : List Bytes),
    List.Sorted (· < ·) l → List.Sorted (· < ·) (dirInsert t l) := by
  intro l
  induction l with
  | nil => simp [dirInsert]
  | cons y ys ih =>
    intro hs
    rw [List.sorted_cons] at hs
    by_cases h1 : t < y
    · unfold dirInsert
      rw [if_pos h1, List.sorted_cons]
      refine ⟨?_, List.sorted_cons.mpr hs⟩
      intro b hb
      rcases List.mem_cons.mp hb with rfl | hb
      · exact h1
      · exact lt_trans h1 (hs.1 b hb)
    · by_cases h2 : t = y
      · unfold dirInsert
        rw [if_neg h1, if_pos h2]
        exact List.sorted_cons.mpr hs
      · unfold dirInsert
        rw [if_neg h1, if_neg h2, List.sorted_cons]
        refine ⟨?_, ih hs.2⟩
        intro b hb
        rcases (mem_dirInsert t b ys).mp hb with rfl | hb
        · rcases lt_trichotomy b y with h | h | h
          · exact absurd h h1
          · exact absurd h h2
          · exact h
        · exact hs.1 b hb

theorem dirRemove_sublist (t : Bytes) : ∀ (l : List Bytes), (dirRemove t l).Sublist l := by
  intro l
  induction l with
  | nil => simp [dirRemove]
  | cons y ys ih =>
    by_cases h : t = y
    · unfold dirRemove
      rw [if_pos h]
      exact List.sublist_cons_self y ys
    · unfold dirRemove
      rw [if_neg h]
      exact List.Sublist.cons₂ y ih

/-! ## C7 lemmas: shard well-formedness -/

theorem filesOK_insert {lo : Option Bytes} {sh : Shard} {e : Bytes}
    (h : filesOK lo sh) (hlo : optLt lo e) (hle : e ≤ sh.maxKey) (hv : validTok e) :
    filesOK lo ⟨sh.maxKey, dirInsert e sh.files⟩ := by
  obtain ⟨hs, hb⟩ := h
  refine ⟨sorted_dirInsert e sh.files hs, ?_⟩
  intro t ht
  rcases (mem_dirInsert e t sh.files).mp ht with rfl | ht
  · exact ⟨hlo, hle, hv⟩
  · exact hb t ht

theorem filesOK_remove {lo : Option Bytes} {sh : Shard} (e : Bytes)
    (h : filesOK lo sh) : filesOK lo ⟨sh.maxKey, dirRemove e sh.files⟩ := by
  obtain ⟨hs, hb⟩ := h
  exact ⟨List.Pairwise.sublist (dirRemove_sublist e sh.files) hs,
    fun t ht => hb t ((dirRemove_sublist e sh.files).subset ht)⟩

/-! ## C7 lemmas: the invariant -/

theorem shardsInv_cons {lo : Option Bytes} {sh : Shard} {l : List Shard}
    (h1 : optLt lo sh.maxKey) (h2 : filesOK lo sh)
    (h3 : shardsInv (some sh.maxKey) l) : shardsInv lo (sh :: l) := by
  match l with
  | [] => exact absurd h3 (by simp [shardsInv])
  | x :: xs => exact ⟨h1, h2, h3⟩

theorem shardsInv_cons_elim {lo : Option Bytes} {sh : Shard} {l : List Shard}
    (h : shardsInv lo (sh :: l)) :
    optLt lo sh.maxKey ∧ filesOK lo sh ∧
      (l = [] ∧ sh.maxKey = sentinelDir ∨ shardsInv (some sh.maxKey) l) := by
  match l with
  | [] => exact ⟨h.1, h.2.2, Or.inl ⟨rfl, h.2.1⟩⟩
  | x :: xs => exact ⟨h.1, h.2.1, Or.inr h.2.2⟩

theorem shardsInv_ne_nil {lo : Option Bytes} {l : List Shard}
    (h : shardsInv lo l) : l ≠ [] := by
  intro he
  subst he
  exact absurd h (by simp [shardsInv])

theorem shardForKey_cons (sh : Shard) (rest : List Shard) (e : Bytes) :
    shardForKey (sh :: rest) e =
      if e ≤ sh.maxKey then 0 else shardForKey rest e + 1 := by
  by_cases h : e ≤ sh.maxKey <;>
    simp [shardForKey, List.findIdx_cons, h]

theorem sorted_take_le : ∀ {l : List Bytes} {k : Nat} {a : Bytes},
    List.Sorted (· < ·) l → l.get? k = some a → ∀ t ∈ l.take (k + 1), t ≤ a := by
  intro l
  induction l with
  | nil => intro k a _ ha; simp at ha
  | cons x xs ih =>
    intro k a hs ha t ht
    rw [List.sorted_cons] at hs
    cases k with
    | zero =>
      have hxa : x = a := by simpa using ha
      have htx : t = x := by simpa using ht
      rw [htx, hxa]
    | succ n =>
      have ha' : xs.get? n = some a := ha
      rw [List.take_succ_cons, List.mem_cons] at ht
      rcases ht with rfl | ht
      · exact le_of_lt (hs.1 a (List.get?_mem ha'))
      · exact ih hs.2 ha' t ht

theorem sorted_drop_lt : ∀ {l : List Bytes} {k : Nat} {a : Bytes},
    List.Sorted (· < ·) l → l.get? k = some a → ∀ t ∈ l.drop (k + 1), a < t := by
  intro l
  induction l with
  | nil => intro k a _ ha; simp at ha
  | cons x xs ih =>
    intro k a hs ha t ht
    rw [List.sorted_cons] at hs
    cases k with
    | zero =>
      have hxa : x = a := by simpa using ha
      have hx := hs.1 t ht
      rwa [hxa] at hx
    | succ n =>
      have ha' : xs.get? n = some a := ha
      exact ih hs.2 ha' t ht

/-! ## C7 lemmas: each mutation preserves the invariant -/

theorem insert_shardsInv (e : Bytes) (hv : validTok e) :
    ∀ (shards : List Shard) (lo : Option Bytes), shardsInv lo shards → optLt lo e →
    ∃ sh, shards.get? (shardForKey shards e) = some sh ∧
      shardsInv lo
        (shards.set (shardForKey shards e) ⟨sh.maxKey, dirInsert e sh.files⟩) := by
  intro shards
  induction shards with
  | nil => intro lo h; exact absurd h (by simp [shardsInv])
  | cons sh rest ih =>
    intro lo h hlo
    obtain ⟨h1, h2, h3⟩ := shardsInv_cons_elim h
    by_cases he : e ≤ sh.maxKey
    · refine ⟨sh, ?_, ?_⟩
      · rw [shardForKey_cons, if_pos he]
        rfl
      · rw [shardForKey_cons, if_pos he]
        show shardsInv lo (⟨sh.maxKey, dirInsert e sh.files⟩ :: rest)
        rcases h3 with ⟨rfl, hsent⟩ | h3
        · exact ⟨h1, hsent, filesOK_insert h2 hlo he hv⟩
        · exact shardsInv_cons h1 (filesOK_insert h2 hlo he hv) h3
    · have hgt : sh.maxKey < e := lt_of_not_le he
      rcases h3 with ⟨rfl, hsent⟩ | h3
      · exact absurd (le_of_lt (hsent ▸ validTok_lt_sentinel hv)) he
      · obtain ⟨sh', hget, hinv⟩ := ih (some sh.maxKey) h3 hgt
        refine ⟨sh', ?_, ?_⟩
        · rw [shardForKey_cons, if_neg he]
          exact hget
        · rw [shardForKey_cons, if_neg he]
          show shardsInv lo (sh :: rest.set (shardForKey rest e)
            ⟨sh'.maxKey, dirInsert e sh'.files⟩)
          exact shardsInv_cons h1 h2 hinv

theorem remove_shardsInv (e : Bytes) :
    ∀ (shards : List Shard) (lo : Option Bytes) (i : Nat) (sh : Shard),
      shardsInv lo shards → shards.get? i = some sh →
      shardsInv lo (shards.set i ⟨sh.maxKey, dirRemove e sh.files⟩) := by
  intro shards
  induction shards with
  | nil => intro lo i sh _ hget; simp at hget
  | cons x rest ih =>
    intro lo i sh h hget
    obtain ⟨h1, h2, h3⟩ := shardsInv_cons_elim h
    cases i with
    | zero =>
      have hxsh : x = sh := by simpa using hget
      obtain rfl := hxsh.symm
      show shardsInv lo (⟨sh.maxKey, dirRemove e sh.files⟩ :: rest)
      rcases h3 with ⟨rfl, hsent⟩ | h3
      · exact ⟨h1, hsent, filesOK_remove e h2⟩
      · exact shardsInv_cons h1 (filesOK_remove e h2) h3
    | succ n =>
      have hget' : rest.get? n = some sh := hget
      rcases h3 with ⟨rfl, hsent⟩ | h3
      · simp at hget'
      · exact shardsInv_cons h1 h2 (ih (some x.maxKey) n sh h3 hget')

theorem splitShard_cons_succ (x : Shard) (rest : List Shard) (n : Nat) :
    splitShard (x :: rest) (n + 1) = (splitShard rest n).map (x :: ·) := by
  unfold splitShard
  cases hg : rest[n]? with
  | none => simp [hg]
  | some sh =>
    cases hgo : goIndex sh.files ((sh.files.length : Int) / 2 - 1) with
    | none => simp [hg, hgo]
    | some nm => simp [hg, hgo, List.take_succ_cons, List.drop_succ_cons]

theorem split_shardsInv :
    ∀ (shards : List Shard) (lo : Option Bytes) (idx : Nat) (sh : Shard),
      shardsInv lo shards → shards.get? idx = some sh → 2 ≤ sh.files.length →
      ∃ s', splitShard shards idx = some s' ∧ shardsInv lo s' := by
  intro shards
  induction shards with
  | nil => intro lo idx sh _ hget; simp at hget
  | cons x rest ih =>
    intro lo idx sh h hget hlen
    obtain ⟨h1, h2, h3⟩ := shardsInv_cons_elim h
    cases idx with
    | zero =>
      have hxsh : x = sh := by simpa using hget
      obtain rfl := hxsh.symm
      obtain ⟨hs, hb⟩ := h2
      have hmid1 : 1 ≤ sh.files.length / 2 := by omega
      have hmidn : sh.files.length / 2 < sh.files.length := by omega
      have hidx : sh.files.length / 2 - 1 < sh.files.length := by omega
      obtain ⟨nm, hnm⟩ : ∃ nm, sh.files.get? (sh.files.length / 2 - 1) = some nm :=
        ⟨sh.files.get ⟨sh.files.length / 2 - 1, hidx⟩,
          List.get?_eq_some.mpr ⟨hidx, rfl⟩⟩
      have hInt : ((sh.files.length : Int) / 2 - 1) =
          ((sh.files.length / 2 - 1 : Nat) : Int) := by omega
      have hgo : goIndex sh.files ((sh.files.length : Int) / 2 - 1) = some nm := by
        unfold goIndex
        rw [hInt, if_neg (by omega)]
        simpa using hnm
      have hsplit : splitShard (sh :: rest) 0 =
          some (⟨nm, sh.files.take (sh.files.length / 2)⟩ ::
            ⟨sh.maxKey, sh.files.drop (sh.files.length / 2)⟩ :: rest) := by
        unfold splitShard
        simp [hgo]
      have hnmF : nm ∈ sh.files := List.get?_mem hnm
      obtain ⟨hnm_lo, hnm_le, hnm_v⟩ := hb nm hnmF
      have htake : ∀ t ∈ sh.files.take (sh.files.length / 2), t ≤ nm := by
        have h' := sorted_take_le hs hnm
        rwa [Nat.sub_add_cancel hmid1] at h'
      have hdrop : ∀ t ∈ sh.files.drop (sh.files.length / 2), nm < t := by
        have h' := sorted_drop_lt hs hnm
        rwa [Nat.sub_add_cancel hmid1] at h'
      have hnm_lt_max : nm < sh.maxKey := by
        have hne : sh.files.drop (sh.files.length / 2) ≠ [] := by
          intro hemp
          have := congrArg List.length hemp
          simp at this
          omega
        obtain ⟨t0, ht0⟩ := List.exists_mem_of_ne_nil _ hne
        exact lt_of_lt_of_le (hdrop t0 ht0)
          (hb t0 (List.mem_of_mem_drop ht0)).2.1
      have hfl : filesOK lo ⟨nm, sh.files.take (sh.files.length / 2)⟩ := by
        refine ⟨List.Pairwise.sublist (List.take_sublist _ _) hs, ?_⟩
        intro t ht
        have htF : t ∈ sh.files := (List.take_sublist _ _).subset ht
        exact ⟨(hb t htF).1, htake t ht, (hb t htF).2.2⟩
      have hfu : filesOK (some nm) ⟨sh.maxKey, sh.files.drop (sh.files.length / 2)⟩ := by
        refine ⟨List.Pairwise.sublist (List.drop_sublist _ _) hs, ?_⟩
        intro t ht
        have htF : t ∈ sh.files := (List.drop_sublist _ _).subset ht
        exact ⟨hdrop t ht, (hb t htF).2.1, (hb t htF).2.2⟩
      refine ⟨_, hsplit, ?_⟩
      refine shardsInv_cons hnm_lo hfl ?_
      rcases h3 with ⟨rfl, hsent⟩ | h3
      · exact ⟨hnm_lt_max, hsent, hfu⟩
      · exact shardsInv_cons hnm_lt_max hfu h3
    | succ n =>
      have hget' : rest.get? n = some sh := hget
      rcases h3 with ⟨rfl, hsent⟩ | h3
      · simp at hget'
      · obtain ⟨s'', hsp, hinv⟩ := ih (some x.maxKey) n sh h3 hget' hlen
        refine ⟨x :: s'', ?_, shardsInv_cons h1 h2 hinv⟩
        rw [splitShard_cons_succ, hsp]
        rfl

theorem get?_set_some {α : Type} (l : List α) (n : Nat) (a b : α)
    (h : l.get? n = some b) : (l.set n a).get? n = some a := by
  rw [List.get?_eq_getElem?] at h ⊢
  rw [List.getElem?_set_self', h]
  rfl

theorem dbPut_shardsInv (maxFiles : Nat) (hmf : 1 ≤ maxFiles) (shards : List Shard)
    (k : Bytes) (h : shardsInv none shards) :
    shardsInv none ((dbPut maxFiles shards k).getD shards) := by
  by_cases hk : k = [] ∨ MaxKeyLength < k.length
  · simp [dbPut, hk, h]
  · have hk0 : k ≠ [] := fun he => hk (Or.inl he)
    have hv : validTok (encodeKey k) := validTok_encodeKey hk0
    obtain ⟨sh, hget, hinv⟩ := insert_shardsInv (encodeKey k) hv shards none h trivial
    unfold dbPut
    rw [if_neg hk]
    simp only [hget]
    by_cases hsp : maxFiles < (dirInsert (encodeKey k) sh.files).length
    · rw [if_pos hsp]
      have hlen2 : 2 ≤ (dirInsert (encodeKey k) sh.files).length := by omega
      have hget1 : (shards.set (shardForKey shards (encodeKey k))
            ⟨sh.maxKey, dirInsert (encodeKey k) sh.files⟩).get?
            (shardForKey shards (encodeKey k)) =
          some ⟨sh.maxKey, dirInsert (encodeKey k) sh.files⟩ :=
        get?_set_some _ _ _ _ hget
      obtain ⟨s', hsome, hinv'⟩ := split_shardsInv _ none _ _ hinv hget1 hlen2
      rw [hsome]
      exact hinv'
    · rw [if_neg hsp]
      exact hinv

theorem dbDelete_shardsInv (shards : List Shard) (k : Bytes)
    (h : shardsInv none shards) : shardsInv none (dbDelete shards k) := by
  by_cases hk : k = []
  · simp [dbDelete, hk, h]
  · unfold dbDelete
    rw [if_neg hk]
    cases hget : shards.get? (shardForKey shards (encodeKey k)) with
    | none => simp only [hget]; exact h
    | some sh =>
      simp only [hget]
      exact remove_shardsInv (encodeKey k) shards none _ sh h hget

theorem runOps_shardsInv (maxFiles : Nat) (hmf : 1 ≤ maxFiles) :
    ∀ (ops : List DBOp) (shards : List Shard), shardsInv none shards →
      shardsInv none (runOps maxFiles shards ops) := by
  intro ops
  induction ops with
  | nil => intro shards h; exact h
  | cons op rest ih =>
    intro shards h
    cases op with
    | put k => exact ih _ (dbPut_shardsInv maxFiles hmf shards k h)
    | del k => exact ih _ (dbDelete_shardsInv shards k h)

theorem initialShards_inv : shardsInv none initialShards := by
  refine ⟨trivial, rfl, ?_⟩
  exact ⟨List.sorted_nil, fun t ht => absurd ht (List.not_mem_nil t)⟩

/-! ## C7 lemmas: consequences of the invariant -/

theorem inv_lo_lt : ∀ (s : List Shard) (m : Bytes), shardsInv (some m) s →
    ∀ sh ∈ s, m < sh.maxKey := by
  intro s
  induction s with
  | nil => intro m _ sh hmem; simp at hmem
  | cons x rest ih =>
    intro m h sh hmem
    obtain ⟨h1, h2, h3⟩ := shardsInv_cons_elim h
    rcases List.mem_cons.mp hmem with rfl | hmem
    · exact h1
    · rcases h3 with ⟨rfl, _⟩ | h3
      · simp at hmem
      · exact lt_trans h1 (ih x.maxKey h3 sh hmem)

theorem inv_sorted : ∀ (s : List Shard) (lo : Option Bytes), shardsInv lo s →
    List.Sorted (· < ·) (upperBounds s) := by
  intro s
  induction s with
  | nil => intro lo _; simp [upperBounds]
  | cons x rest ih =>
    intro lo h
    obtain ⟨h1, h2, h3⟩ := shardsInv_cons_elim h
    rcases h3 with ⟨rfl, _⟩ | h3
    · simp [upperBounds]
    · rw [upperBounds, List.map_cons, List.sorted_cons]
      refine ⟨?_, ih _ h3⟩
      intro b hb
      obtain ⟨sh, hmem, rfl⟩ := List.mem_map.mp hb
      exact inv_lo_lt rest x.maxKey h3 sh hmem

theorem inv_last : ∀ (s : List Shard) (lo : Option Bytes), shardsInv lo s →
    (upperBounds s).getLast? = some sentinelDir := by
  intro s
  induction s with
  | nil => intro lo h; exact absurd h (by simp [shardsInv])
  | cons x rest ih =>
    intro lo h
    obtain ⟨h1, h2, h3⟩ := shardsInv_cons_elim h
    rcases h3 with ⟨rfl, hsent⟩ | h3
    · simp [upperBounds, hsent]
    · obtain ⟨y, ys, rfl⟩ := List.exists_cons_of_ne_nil (shardsInv_ne_nil h3)
      have hlast := ih _ h3
      rw [upperBounds, List.map_cons] at hlast ⊢
      rw [List.map_cons, List.getLast?_cons_cons]
      exact hlast

theorem inv_tok_gt : ∀ (s : List Shard) (m : Bytes) (i : Nat) (sh : Shard),
    shardsInv (some m) s → s.get? i = some sh → ∀ t ∈ sh.files, m < t := by
  intro s
  induction s with
  | nil => intro m i sh _ hget; simp at hget
  | cons x rest ih =>
    intro m i sh h hget t ht
    obtain ⟨h1, h2, h3⟩ := shardsInv_cons_elim h
    cases i with
    | zero =>
      have hx : x = sh := by simpa using hget
      exact (h2.2 t (by rw [hx]; exact ht)).1
    | succ n =>
      have hget' : rest.get? n = some sh := hget
      rcases h3 with ⟨rfl, _⟩ | h3
      · simp at hget'
      · exact lt_trans h1 (ih x.maxKey n sh h3 hget' t ht)

theorem inv_residence : ∀ (s : List Shard) (lo : Option Bytes) (i : Nat) (sh : Shard),
    shardsInv lo s → s.get? i = some sh → ∀ t ∈ sh.files, shardForKey s t = i := by
  intro s
  induction s with
  | nil => intro lo i sh _ hget; simp at hget
  | cons x rest ih =>
    intro lo i sh h hget t ht
    obtain ⟨h1, h2, h3⟩ := shardsInv_cons_elim h
    cases i with
    | zero =>
      have hx : x = sh := by simpa using hget
      have hle : t ≤ x.maxKey := (h2.2 t (by rw [hx]; exact ht)).2.1
      rw [shardForKey_cons, if_pos hle]
    | succ n =>
      have hget' : rest.get? n = some sh := hget
      rcases h3 with ⟨rfl, _⟩ | h3
      · simp at hget'
      · have hgt : x.maxKey < t := inv_tok_gt rest x.maxKey n sh h3 hget' t ht
        rw [shardForKey_cons, if_neg (not_le.mpr hgt), ih _ n sh h3 hget' t ht]

/-! ## C7: the shard layout invariant -/

/-- Claim C7, confirmed (for any positive `maxFilesPerShard`; the
default is 30000 and the unexported test option is the only way to
change it): after every sequence of `Put` and `Delete` operations on an
open database — including any shard splits they trigger — the shard
upper-bound names are strictly increasing with the sentinel shard last,
and every stored record resides in the unique shard whose upper bound is
the least upper bound `≥` the record's key token (`shardForKey` computes
exactly that least index, and it returns the index of the shard holding
the record). -/
theorem C7_shard_invariant (maxFiles : Nat) (ops : List DBOp) (hmf : 1 ≤ maxFiles) :
    List.Sorted (· < ·) (upperBounds (runOps maxFiles initialShards ops)) ∧
    (upperBounds (runOps maxFiles initialShards ops)).getLast? = some sentinelDir ∧
    (∀ (i : Nat) (sh : Shard),
      (runOps maxFiles initialShards ops).get? i = some sh →
      ∀ t ∈ sh.files, shardForKey (runOps maxFiles initialShards ops) t = i) := by
  have h := runOps_shardsInv maxFiles hmf ops initialShards initialShards_inv
  exact ⟨inv_sorted _ _ h, inv_last _ _ h,
    fun i sh hget t ht => inv_residence _ _ i sh h hget t ht⟩

/-- Witness for C7: the statement applied at the default
`maxFilesPerShard` and a concrete operation sequence. -/
theorem C7_witness :
    1 ≤ defaultMaxFilesPerShard ∧
    (List.Sorted (· < ·) (upperBounds (runOps defaultMaxFilesPerShard initialShards
        [.put [1], .put [2], .del [1]])) ∧
    (upperBounds (runOps defaultMaxFilesPerShard initialShards
        [.put [1], .put [2], .del [1]])).getLast? = some sentinelDir ∧
    (∀ (i : Nat) (sh : Shard),
      (runOps defaultMaxFilesPerShard initialShards
        [.put [1], .put [2], .del [1]]).get? i = some sh →
      ∀ t ∈ sh.files,
        shardForKey (runOps defaultMaxFilesPerShard initialShards
          [.put [1], .put [2], .del [1]]) t = i)) :=
  ⟨by decide,
    C7_shard_invariant defaultMaxFilesPerShard [.put [1], .put [2], .del [1]] (by decide)⟩

/-! ## C2: order preservation of the key encoding -/

/-- Claim C2 fails on the code: `encodeKey` is Go's *padded*
`base32.HexEncoding`, and the `'='` padding (byte 61) sorts above the
digit characters, so the encoding does not preserve lexicographic order.
The raw keys `[0x00]` and `[0x00, 0x00]` (both of length ≤ 128) satisfy
`[0x00] < [0x00, 0x00]`, yet their encoded filenames `"00======"` and
`"0000===="` compare the other way around.  The second half of the claim
— reversibility — does hold at these inputs. -/
theorem C2_encodeKey_order_bug :
    ([0] : Bytes) < [0, 0] ∧ encodeKey [0, 0] < encodeKey [0] ∧
    encodeKey [0] = [48, 48, 61, 61, 61, 61, 61, 61] ∧
    encodeKey [0, 0] = [48, 48, 48, 48, 61, 61, 61, 61] ∧
    decodeKey (encodeKey [0]) = some [0] ∧
    decodeKey (encodeKey [0, 0]) = some [0, 0] := by decide

/-! ## C1: iteration order of `Items` -/

/-- Claim C1 fails on the code, for the same root cause as C2: `Items`
visits record files in lexicographic order of their *encoded* names, and
the padded encoding does not preserve raw-byte order.  Starting from a
fresh database, after `Put [0x00, 0x00]` and `Put [0x00]`,
`Items(start=nil, order=Asc)` invokes the callback on `[0x00, 0x00]`
strictly before `[0x00]`, although `[0x00]` precedes `[0x00, 0x00]` in
raw-byte lexicographic order. -/
theorem C1_items_order_bug :
    ([0] : Bytes) < [0, 0] ∧
    itemsKeys (runOps defaultMaxFilesPerShard initialShards [.put [0, 0], .put [0]]) [] 1 =
      some [[0, 0], [0]] := by decide

/-! ## C3: round-trip for every key of length ≤ 128 -/

/-- Claim C3 fails on the code at the zero-length key: `cacheGet` builds
the cache key with `unsafe.String(&key[0], len(key))`, and indexing
`key[0]` panics for a zero-length key, so `Get` and `Has` panic before
touching the cache or the disk.  (`Put` of the empty key fails as well:
its token `encodeKey [] = []` makes the target path the shard directory
itself, so the write fails with `EISDIR`.)  For every record state, the
model of `Get` and of `Has` on the empty key is the panic `none`. -/
theorem C3_empty_key_bug :
    (∀ st : KVView, dbGet st [] = none ∧ dbHas st [] = none) ∧
    encodeKey [] = [] := by
  refine ⟨fun st => ⟨rfl, rfl⟩, rfl⟩

/-! ## C4: random-eviction cache at capacity -/

/-- Claim C4 as stated is false: with the cache at capacity, `Put` of a
key that is *already present* still evicts one arbitrary entry before
inserting.  Concretely, with capacity 2 and entries `a ↦ [1], b ↦ [2]`,
a `Put` of the present key `a` in an execution whose map iteration
yields `b` first deletes `b`: the result is `{a ↦ [3]}`, the unrelated
entry `b` is gone and the size has dropped below capacity. -/
theorem C4_cex :
    goMapLookup "a" (RandomCache.cache ⟨[("a", [1]), ("b", [2])], 2⟩) = some [1] ∧
    randomCachePut ⟨[("a", [1]), ("b", [2])], 2⟩ "b" "a" [3] = ⟨[("a", [3])], 2⟩ ∧
    goMapLookup "b" (randomCachePut ⟨[("a", [1]), ("b", [2])], 2⟩ "b" "a" [3]).cache =
      none ∧
    (randomCachePut ⟨[("a", [1]), ("b", [2])], 2⟩ "b" "a" [3]).cache.length = 1 := by
  decide

/-- Claim C4, amended: at capacity, `randomCache.Put` always deletes one
arbitrary present entry (`pick`) and then inserts the pair, whether or
not the key is present.  When the key was absent the size stays exactly
at capacity; when the key was present and the arbitrary victim is a
different key, that entry is lost and the size drops by one.  In every
case the written key maps to the new value afterwards. -/
theorem C4_put_at_capacity (c : RandomCache) (pick k : String) (v : Bytes)
    (hcap : (c.cache.length : Int) = c.maxSize) (hpos : 0 < c.maxSize)
    (hpick : pick ∈ c.cache.map Prod.fst) (hnd : (c.cache.map Prod.fst).Nodup) :
    randomCachePut c pick k v =
      { c with cache := goMapInsert k v (goMapDelete pick c.cache) } ∧
    goMapLookup k (randomCachePut c pick k v).cache = some v ∧
    (goMapLookup k c.cache = none →
      ((randomCachePut c pick k v).cache.length : Int) = c.maxSize) ∧
    (pick ≠ k → (goMapLookup k c.cache).isSome →
      goMapLookup pick (randomCachePut c pick k v).cache = none ∧
      (randomCachePut c pick k v).cache.length + 1 = c.cache.length) := by
  have hbranch : ¬(c.maxSize ≤ 0 ∨ (c.cache.length : Int) < c.maxSize) := by
    push_neg
    exact ⟨hpos, le_of_eq hcap.symm⟩
  have hres : randomCachePut c pick k v =
      { c with cache := goMapInsert k v (goMapDelete pick c.cache) } := by
    unfold randomCachePut
    rw [if_neg hbranch]
  have hlenDel : (goMapDelete pick c.cache).length + 1 = c.cache.length :=
    length_goMapDelete_mem hpick
  refine ⟨hres, ?_, ?_, ?_⟩
  · rw [hres]
    exact goMapLookup_insert_self k v _
  · intro habs
    have hpk : k ≠ pick := by
      intro he
      subst he
      have := goMapLookup_isSome_of_mem hpick
      rw [habs] at this
      simp at this
    have hkd : goMapLookup k (goMapDelete pick c.cache) = none := by
      rw [goMapLookup_delete_ne _ hpk]
      exact habs
    rw [hres]
    have : (goMapInsert k v (goMapDelete pick c.cache)).length =
        (goMapDelete pick c.cache).length + 1 := length_goMapInsert_absent v hkd
    simp only [this, hlenDel]
    exact hcap
  · intro hne hsome
    have hkd : (goMapLookup k (goMapDelete pick c.cache)).isSome := by
      rw [goMapLookup_delete_ne _ (Ne.symm hne)]
      exact hsome
    constructor
    · rw [hres]
      show goMapLookup pick (goMapInsert k v (goMapDelete pick c.cache)) = none
      rw [goMapLookup_insert_ne _ _ hne]
      exact goMapLookup_delete_self hnd
    · rw [hres]
      show (goMapInsert k v (goMapDelete pick c.cache)).length + 1 = c.cache.length
      rw [length_goMapInsert_present v hkd]
      exact hlenDel

/-- Witness for C4: the amended statement applied at a concrete
at-capacity cache. -/
theorem C4_witness :
    ((RandomCache.cache ⟨[("a", [1]), ("b", [2])], 2⟩).length : Int) = 2 ∧
    (0 : Int) < 2 ∧
    randomCachePut ⟨[("a", [1]), ("b", [2])], 2⟩ "b" "c" [9] =
      ⟨[("a", [1]), ("c", [9])], 2⟩ := by
  refine ⟨by decide, by decide, ?_⟩
  have h := (C4_put_at_capacity ⟨[("a", [1]), ("b", [2])], 2⟩ "b" "c" [9]
    (by decide) (by decide) (by decide) (by decide)).1
  rw [h]
  decide

/-! ## C5: exclusive flag of the atomic writer -/

/-- Claim C5 as stated is false: the `O_EXCL` flag is only applied on
the direct single-sector path; when the payload exceeds one disk sector
the writer creates a fresh temporary file (where `O_EXCL` always
succeeds) and renames it over the target, replacing an existing target
despite the exclusive flag.  Concretely, with a 4097-byte payload and a
target that already holds `[1]`, the exclusive write succeeds and the
target ends up holding the new payload. -/
theorem C5_cex :
    (goMapLookup "target" ([("target", [1])] : FileMap)).isSome ∧
    atomicWriterWriteFile true [("target", [1])] "target" "tmp0"
        (List.replicate 4097 0) true =
      some [("target", List.replicate 4097 0)] := by
  refine ⟨by decide, ?_⟩
  unfold atomicWriterWriteFile
  rw [if_neg]
  · rfl
  · rintro ⟨-, hle⟩
    rw [List.length_replicate] at hle
    exact absurd hle (by decide)

/-- Claim C5, amended: the exclusive write refuses to overwrite an
existing target exactly on the direct-write path, i.e. on linux whenever
the payload fits in one disk sector (at most 4096 bytes); there the call
fails (`none`, so the target's prior content stays in place).  For
larger payloads the temp-file + rename path replaces the target (see the
counterexample). -/
theorem C5_excl_direct_path (m : FileMap) (path tmpPath : String) (data : Bytes)
    (hlen : data.length ≤ defaultDiskSectorSize)
    (hex : (goMapLookup path m).isSome) :
    atomicWriterWriteFile true m path tmpPath data true = none := by
  unfold atomicWriterWriteFile
  rw [if_pos ⟨rfl, hlen⟩]
  unfold atomicWriterWriteFileRaw
  rw [if_pos ⟨rfl, hex⟩]

/-- Witness for C5: the amended statement applied at a concrete state
with an existing target and a one-byte payload. -/
theorem C5_witness :
    ([9] : Bytes).length ≤ defaultDiskSectorSize ∧
    (goMapLookup "p" ([("p", [1])] : FileMap)).isSome ∧
    atomicWriterWriteFile true [("p", [1])] "p" "t" [9] true = none := by
  refine ⟨by decide, by decide, ?_⟩
  exact C5_excl_direct_path [("p", [1])] "p" "t" [9] (by decide) (by decide)

/-! ## C6: shard split on a shard with fewer than two files -/

/-- Claim C6 as stated is false: `splitShard` on a shard with fewer than
two files is not a no-op — it panics.  With zero or one file,
`mid = len(files)/2 = 0` and the source indexes `files[mid-1]`, i.e.
`files[-1]`, an index-out-of-range panic.  Concretely, splitting the
sentinel shard while it holds a single record file panics (`none`)
rather than leaving the state unchanged. -/
theorem C6_cex :
    (([⟨sentinelDir, [encodeKey [1]]⟩] : List Shard).get? 0).map
        (fun sh => sh.files.length) = some 1 ∧
    splitShard [⟨sentinelDir, [encodeKey [1]]⟩] 0 = none := by decide

/-- Claim C6, amended: invoking `splitShard` on any shard holding fewer
than two files panics with an index-out-of-range (the model's `none`);
it is not a no-op.  (In actual operation `splitShard` is only reached
when a shard's count exceeds `maxFilesPerShard ≥ 1`, so at least two
files are present.) -/
theorem C6_split_small_panics (shards : List Shard) (idx : Nat) (sh : Shard)
    (hget : shards.get? idx = some sh) (hlt : sh.files.length < 2) :
    splitShard shards idx = none := by
  unfold splitShard
  rw [hget]
  have hneg : ((sh.files.length : Int) / 2 - 1) < 0 := by omega
  simp only [Option.bind_eq_bind, Option.some_bind, goIndex, if_pos hneg,
    Option.none_bind]

/-- Witness for C6: the amended statement applied at a concrete shard
list with an empty shard directory. -/
theorem C6_witness :
    (([⟨[48], []⟩, ⟨sentinelDir, [encodeKey [3]]⟩] : List Shard).get? 0 =
      some ⟨[48], []⟩) ∧
    (Shard.files ⟨[48], []⟩).length < 2 ∧
    splitShard [⟨[48], []⟩, ⟨sentinelDir, [encodeKey [3]]⟩] 0 = none := by
  refine ⟨by decide, by decide, ?_⟩
  exact C6_split_small_panics _ 0 ⟨[48], []⟩ (by decide) (by decide)

/-! ## C9: the generation/checkpoint invariant -/

/-- Claim C9 as stated is false in `uint64` arithmetic: `Put` increments
`Generation` modulo `2^64`, so from the invariant-satisfying state
`Generation = Checkpoint = 2^64 - 1` a `Put` wraps `Generation` to `0`,
which is below the unchanged `Checkpoint`.  (The state is reachable in
the model only after `2^64` mutations, so the wrap is of no practical
concern — but the unqualified preservation statement is still false.) -/
theorem C9_cex :
    (Metadata.Checkpoint ⟨1, 0, U64 - 1, U64 - 1⟩ ≤
      Metadata.Generation ⟨1, 0, U64 - 1, U64 - 1⟩) ∧
    ¬ ((metaStep .putNew ⟨1, 0, U64 - 1, U64 - 1⟩).Checkpoint ≤
        (metaStep .putNew ⟨1, 0, U64 - 1, U64 - 1⟩).Generation) := by decide

/-- Claim C9, amended: every public operation preserves
`Checkpoint ≤ Generation` provided the generation counter does not
overflow, i.e. whenever `Generation + 1 < 2^64` in the pre-state.
`prepareForMutation` raises `Generation` to `Checkpoint + 1` only when
the two are equal, `Put` and `Delete` only increment `Generation`, and
`Sync`, `Close` and recovery set `Checkpoint` to the current
`Generation`. -/
theorem C9_meta_invariant (op : MetaOp) (m : Metadata)
    (hinv : m.Checkpoint ≤ m.Generation) (hnof : m.Generation + 1 < U64) :
    (metaStep op m).Checkpoint ≤ (metaStep op m).Generation := by
  have hmod : (m.Generation + 1) % U64 = m.Generation + 1 := Nat.mod_eq_of_lt hnof
  cases op with
  | prepare =>
    simp only [metaStep]
    by_cases h : m.Generation = m.Checkpoint
    · rw [if_neg (by simp [h])]
      have hC : (m.Checkpoint + 1) % U64 = m.Checkpoint + 1 := by
        rw [← h]; exact hmod
      simp [hC]
    · rw [if_pos h]
      exact hinv
  | putNew => simpa [metaStep, hmod] using Nat.le_succ_of_le hinv
  | putExisting => simpa [metaStep, hmod] using Nat.le_succ_of_le hinv
  | delFound => simpa [metaStep, hmod] using Nat.le_succ_of_le hinv
  | delMissing => simpa [metaStep, hmod] using Nat.le_succ_of_le hinv
  | sync => simp [metaStep]
  | recover n => simp [metaStep]

/-- Witness for C9: the amended statement applied at the fresh metadata
and a `Put` of a new key. -/
theorem C9_witness :
    (Metadata.Checkpoint makeMetadata ≤ Metadata.Generation makeMetadata) ∧
    Metadata.Generation makeMetadata + 1 < U64 ∧
    (metaStep .putNew makeMetadata).Checkpoint ≤
      (metaStep .putNew makeMetadata).Generation := by
  refine ⟨by decide, by decide, ?_⟩
  exact C9_meta_invariant .putNew makeMetadata (by decide) (by decide)

/-! ## C8: recovery on a dirty open -/

/-- Claim C8, confirmed: when `Open` loads metadata whose generation
differs from its checkpoint, `sanityCheck` runs `recoverDatabase`, which
sets `TotalEntries` to the number of regular files under `data/`, sets
`Checkpoint := Generation`, and persists the resulting metadata, so that
`Len()` on the returned database equals that file count.  (The file
count is below `2^63`: `Len` returns `int64(TotalEntries)`, which wraps
to a negative value for counts of `2^63` and beyond.) -/
theorem C8_recovery (st : InitState) (hv : st.metadata.Version = version)
    (hd : st.metadata.Generation ≠ st.metadata.Checkpoint)
    (hc : countRegularFiles st.dataDir < 2 ^ 63) :
    sanityCheck st = some (recoverDatabase st) ∧
    (recoverDatabase st).metadata.TotalEntries = countRegularFiles st.dataDir ∧
    (recoverDatabase st).metadata.Checkpoint = st.metadata.Generation ∧
    (recoverDatabase st).persisted = (recoverDatabase st).metadata ∧
    dbLen false (recoverDatabase st).metadata = (countRegularFiles st.dataDir : Int) := by
  have hval : metadataValidate st.metadata = true := by
    simp [metadataValidate, hv]
  have hc64 : countRegularFiles st.dataDir < U64 := by
    have : (2 : Nat) ^ 63 < U64 := by unfold U64; norm_num
    omega
  have hmod : countRegularFiles st.dataDir % U64 = countRegularFiles st.dataDir :=
    Nat.mod_eq_of_lt hc64
  refine ⟨?_, ?_, rfl, rfl, ?_⟩
  · simp [sanityCheck, hval, hd]
  · simp [recoverDatabase, metadataSave, hmod]
  · simp only [dbLen, int64OfUInt64, recoverDatabase, metadataSave, if_false,
      Bool.false_eq_true]
    rw [hmod, hmod, if_pos hc]

/-- Witness for C8: the amended-free statement applied to a dirty state
whose data directory holds two record files in one shard directory. -/
theorem C8_witness :
    (InitState.metadata ⟨⟨1, 5, 3, 0⟩, ⟨1, 5, 3, 0⟩, .dir [.dir [.file, .file]]⟩).Version =
      version ∧
    (3 : Nat) ≠ 0 ∧
    countRegularFiles (.dir [.dir [.file, .file]]) < 2 ^ 63 ∧
    sanityCheck ⟨⟨1, 5, 3, 0⟩, ⟨1, 5, 3, 0⟩, .dir [.dir [.file, .file]]⟩ =
      some (recoverDatabase ⟨⟨1, 5, 3, 0⟩, ⟨1, 5, 3, 0⟩, .dir [.dir [.file, .file]]⟩) := by
  have hcount : countRegularFiles (.dir [.dir [.file, .file]]) = 2 := by
    simp [countRegularFiles]
  refine ⟨rfl, by decide, by rw [hcount]; decide, ?_⟩
  exact (C8_recovery ⟨⟨1, 5, 3, 0⟩, ⟨1, 5, 3, 0⟩, .dir [.dir [.file, .file]]⟩
    rfl (by decide) (by rw [hcount]; decide)).1

/-! ## C10: zero-length values versus absent keys -/

/-- Claim C10, confirmed: for a (non-empty) key stored with a zero-length
value, `Get` returns the empty byte string with no error — the same
observable result `Get` gives for an absent key (`nil, nil`) — while
`Has` distinguishes the two, returning `true` for the stored key and
`false` for the absent one.  The cache hypotheses describe the reachable
cache states for such keys: the stored key is uncached or cached with its
(empty) value, the absent key is uncached.  (Keys are required non-empty
because `Get`/`Has` panic on the empty key — see C3.) -/
theorem C10_empty_value (st : KVView) (k k' : Bytes)
    (hk : k ≠ []) (hk' : k' ≠ [])
    (hdisk : goMapLookup k st.disk = some []) (habs : goMapLookup k' st.disk = none)
    (hc : goMapLookup k st.cache = none ∨ goMapLookup k st.cache = some [])
    (hc' : goMapLookup k' st.cache = none) :
    dbGet st k = some [] ∧ dbGet st k' = some [] ∧
    dbHas st k = some true ∧ dbHas st k' = some false := by
  obtain ⟨a, as, rfl⟩ : ∃ a as, k = a :: as := by
    cases k with
    | nil => exact absurd rfl hk
    | cons a as => exact ⟨a, as, rfl⟩
  obtain ⟨b, bs, rfl⟩ : ∃ b bs, k' = b :: bs := by
    cases k' with
    | nil => exact absurd rfl hk'
    | cons b bs => exact ⟨b, bs, rfl⟩
  rcases hc with hc | hc <;>
    simp [dbGet, dbHas, cacheGet, hc, hc', hdisk, habs]

/-- Witness for C10: the statement applied at a concrete state holding
key `[1]` with the empty value, key `[2]` absent, and an empty cache. -/
theorem C10_witness :
    (([1] : Bytes) ≠ []) ∧ (([2] : Bytes) ≠ []) ∧
    dbGet ⟨[([1], [])], []⟩ [1] = some [] ∧
    dbGet ⟨[([1], [])], []⟩ [2] = some [] ∧
    dbHas ⟨[([1], [])], []⟩ [1] = some true ∧
    dbHas ⟨[([1], [])], []⟩ [2] = some false := by
  refine ⟨by decide, by decide, ?_⟩
  have h := C10_empty_value ⟨[([1], [])], []⟩ [1] [2] (by decide) (by decide)
    (by decide) (by decide) (Or.inl (by decide)) (by decide)
  exact ⟨h.1, h.2.1, h.2.2.1, h.2.2.2⟩

end SDB
